import Mathlib

/-!
Verification of `SAMRAI::math::HierarchyEdgeDataOpsInteger`
(src/unnamed/part_000) and `SAMRAI::tbox::DatabaseBox`
(src/source/SAMRAI/tbox/DatabaseBox.h) against the natural-language
specification.

The hierarchy-wide driver is embedded directly from the source.  The
collaborators the driver calls that are not part of src/ --
`pdat::EdgeGeometry::toEdgeBox`, `hier::BoxUtilities::
makeNonOverlappingBoxContainers`, the single-patch operators of
`math::PatchEdgeDataOpsInteger`, and `tbox::MathUtilities<int>` -- are
modelled from the spec's words, each with a doc comment saying so.
-/

namespace Samrai

/-- A point in the integer index space: one coordinate per dimension. -/
abbrev Pt := List Int

/-- An axis-aligned box in D-dimensional integer index space with inclusive
lower and upper corners (`hier::Box`, one field per coordinate). -/
structure Box where
  lo : List Int
  hi : List Int
deriving DecidableEq, Repr

instance : Inhabited Box := ⟨⟨[], []⟩⟩

/-- Number of index points of a box: product over dimensions of
`hi - lo + 1` (clamped at zero), mirroring `hier::Box::size`. -/
def Box.size (b : Box) : Nat :=
  ((b.lo.zip b.hi).map (fun p => (p.2 - p.1 + 1).toNat)).prod

/-- Increment the `a`-th entry of a coordinate list by one. -/
def bumpAt : List Int → Nat → List Int
  | [], _ => []
  | h :: t, 0 => (h + 1) :: t
  | h :: t, Nat.succ n => h :: bumpAt t n

/-- Modelled from the spec: `pdat::EdgeGeometry::toEdgeBox` is not under
src/.  Spec section 3 fixes the convention for the edge variant on axis
`a`: the geometry box is the cell box with `upper[a]+1`, other entries
unchanged. -/
def toEdgeBox (b : Box) (axis : Nat) : Box :=
  { lo := b.lo, hi := bumpAt b.hi axis }

/-- The finite set of points lying inside the box spanned by parallel
lower/upper corner lists. -/
def pointsAux : List Int → List Int → Finset Pt
  | [], [] => {[]}
  | l :: ls, h :: hs =>
      (Finset.Icc l h).biUnion (fun x => (pointsAux ls hs).image (List.cons x))
  | _, _ => ∅

/-- The set of index points covered by a box. -/
def Box.points (b : Box) : Finset Pt := pointsAux b.lo b.hi

/-- Union of a list of point sets. -/
def listUnion : List (Finset Pt) → Finset Pt
  | [] => ∅
  | s :: t => s ∪ listUnion t

/-- Modelled from the spec: `hier::BoxUtilities::
makeNonOverlappingBoxContainers` is not under src/.  Spec section 4.1:
the i-th output collection holds disjoint boxes covering exactly the
i-th input box minus the union of the earlier input boxes (later boxes'
overlaps with earlier already-placed regions are subtracted).  Because
the output boxes of one collection are disjoint and cover that set, the
collection is modelled by its covered point set, and the code's sum of
output-box sizes by the set's cardinality. -/
def decompPointSets (sets : List (Finset Pt)) : List (Finset Pt) :=
  (List.range sets.length).map
    (fun i => (sets.getD i ∅) \ listUnion (sets.take i))

theorem card_listUnion_aux (sets : List (Finset Pt)) :
    ∀ acc : Finset Pt,
      acc.card +
        ∑ i ∈ Finset.range sets.length,
          ((sets.getD i ∅) \ (acc ∪ listUnion (sets.take i))).card =
      (acc ∪ listUnion sets).card := by
  induction sets with
  | nil => intro acc; simp [listUnion]
  | cons s t ih =>
      intro acc
      have hsucc :
          ∑ i ∈ Finset.range (t.length + 1),
            (((s :: t).getD i ∅) \ (acc ∪ listUnion ((s :: t).take i))).card =
          (∑ i ∈ Finset.range t.length,
            ((t.getD i ∅) \ ((acc ∪ s) ∪ listUnion (t.take i))).card) +
            (s \ acc).card := by
        rw [Finset.sum_range_succ']
        congr 1
        · refine Finset.sum_congr rfl (fun i _ => ?_)
          have : acc ∪ listUnion (s :: t.take i) = (acc ∪ s) ∪ listUnion (t.take i) := by
            simp [listUnion, Finset.union_assoc]
          simp [this]
        · simp [listUnion]
      have hcard : acc.card + (s \ acc).card = (acc ∪ s).card := by
        rw [Nat.add_comm, Finset.card_sdiff_add_card, Finset.union_comm]
      calc acc.card + ∑ i ∈ Finset.range (s :: t).length,
              (((s :: t).getD i ∅) \ (acc ∪ listUnion ((s :: t).take i))).card
          = acc.card + (s \ acc).card +
              ∑ i ∈ Finset.range t.length,
                ((t.getD i ∅) \ ((acc ∪ s) ∪ listUnion (t.take i))).card := by
            simp only [List.length_cons, hsucc]; ring
        _ = ((acc ∪ s) ∪ listUnion t).card := by rw [hcard]; exact ih (acc ∪ s)
        _ = (acc ∪ listUnion (s :: t)).card := by
            simp [listUnion, Finset.union_assoc]

/-- The cardinalities of the non-overlapping decomposition's collections
sum to the cardinality of the union of the inputs: every point is
counted exactly once. -/
theorem sum_card_decompPointSets (sets : List (Finset Pt)) :
    ∑ i ∈ Finset.range sets.length,
      ((sets.getD i ∅) \ listUnion (sets.take i)).card =
    (listUnion sets).card := by
  have h := card_listUnion_aux sets ∅
  simpa using h

/-- Static metadata of a patch-data factory
(`pdat::EdgeDataFactory<int>`): depth (components per entity) and
ghost-cell width, as resolved through the patch descriptor. -/
structure Factory where
  depth : Nat
  ghostWidth : List Int
deriving DecidableEq, Repr

instance : Inhabited Factory := ⟨⟨1, []⟩⟩

/-- One integer edge-data array (`pdat::EdgeData<int>`): its ghost box,
its depth, and its stored entries as an index-to-value association. -/
structure EdgeData where
  ghostBox : Box
  depth : Nat
  entries : List (Pt × Int)
deriving DecidableEq, Repr

instance : Inhabited EdgeData := ⟨⟨default, 0, []⟩⟩

/-- A patch (`hier::Patch`): its own box and its patch-data arrays,
indexed positionally by patch-data id. -/
structure Patch where
  box : Box
  data : List EdgeData
deriving DecidableEq, Repr

instance : Inhabited Patch := ⟨⟨default, []⟩⟩

/-- `patch->getPatchData(id)`, with the library default when the id does
not resolve (the source asserts resolution in checked builds). -/
def Patch.dataD (p : Patch) (id : Nat) : EdgeData :=
  (p.data.get? id).getD default

/-- One refinement level (`hier::PatchLevel`): the global list of boxes
of all its patches across every process (`getBoxes`,
`getNumberOfPatches`), and the locally owned patches (the level
iterator). -/
structure Level where
  boxes : List Box
  patches : List Patch
deriving DecidableEq, Repr

instance : Inhabited Level := ⟨⟨[], []⟩⟩

/-- The rank-local view of a patch hierarchy (`hier::PatchHierarchy`):
index-space dimension, the patch descriptor's factories indexed by
patch-data id, the levels coarsest first, and the size of the MPI
communicator. -/
structure Hierarchy where
  dim : Nat
  descriptor : List Factory
  levels : List Level
  mpiSize : Nat
deriving DecidableEq, Repr

instance : Inhabited Hierarchy := ⟨⟨0, [], [], 1⟩⟩

/-- `hier::PatchHierarchy::getFinestLevelNumber` = number of levels
minus one. -/
def Hierarchy.finestLevelNumber (h : Hierarchy) : Int :=
  (h.levels.length : Int) - 1

/-- `hier::PatchHierarchy::getPatchLevel(ln)` (total with the library
default; the driver only calls it with an in-range level number). -/
def Hierarchy.getLevel (h : Hierarchy) (ln : Int) : Level :=
  h.levels.getD ln.toNat default

/-- Modelled from the spec: `tbox::MathUtilities<int>::getMax()` is not
under src/; it is the element type's maximum representable value, for
32-bit int 2^31 - 1. -/
def intMax : Int := 2147483647

/-- Modelled from the spec: `math::PatchEdgeDataOpsInteger::min` is not
under src/.  Spec section 4.2: a single-patch reduction over the data
entries lying in the given box region, with the min combination rule
starting from the type's maximum. -/
def patchMin (d : EdgeData) (box : Box) : Int :=
  d.entries.foldl (fun m e => if e.1 ∈ box.points then min m e.2 else m) intMax

/-- Modelled from the spec: `math::PatchEdgeDataOpsInteger::max` is not
under src/.  Spec section 4.2: the max combination rule starting from
the negation of the type's maximum. -/
def patchMax (d : EdgeData) (box : Box) : Int :=
  d.entries.foldl (fun m e => if e.1 ∈ box.points then max m e.2 else m) (-intMax)

/-- Modelled from the spec: the single-patch entry count
(`math::PatchEdgeDataNormOpsInteger::numberOfEntries`) is not under
src/.  Spec sections 3 and 4.2: the number of entries of an edge-data
array over a region is the depth times the sum over the D axes of the
size of the region's edge box for that axis. -/
def patchNumberOfEntries (d : EdgeData) (box : Box) : Nat :=
  d.depth * ((List.range box.lo.length).map (fun a => (toEdgeBox box a).size)).sum

/-- The inclusive integer range `[c, f]` as a list, empty when `c > f`:
the driver's `for (int ln = c; ln <= f; ++ln)` loop. -/
def intRange (c f : Int) : List Int :=
  (List.range (f + 1 - c).toNat).map (fun (k : Nat) => c + (k : Int))

/-- The levels visited by a driver loop over the bound range. -/
def opLevels (h : Hierarchy) (c f : Int) : List Level :=
  (intRange c f).map (fun ln => h.getLevel ln)

/-- All locally owned patches visited by a driver loop, levels coarsest
first, patches in level-iterator order. -/
def visitedPatches (h : Hierarchy) (c f : Int) : List Patch :=
  ((opLevels h c f).map Level.patches).flatten

/-- The per-patch edge-geometry point sets of one level for one axis:
`level->getBoxes()` with each box converted by `toEdgeBox` for that
axis (resetLevels lines 92-97). -/
def levelEdgeSets (lvl : Level) (axis : Nat) : List (Finset Pt) :=
  lvl.boxes.map (fun b => (toEdgeBox b axis).points)

/-- `std::vector::resize(n)` semantics: truncate or pad with the
default. -/
def resizeWith (xs : List (List (Finset Pt))) (n : Nat) : List (List (Finset Pt)) :=
  (List.range n).map (fun i => xs.getD i [])

/-- The decomposition state `d_nonoverlapping_edge_boxes`, indexed
axis, then level number, then patch index; each entry is the point set
covered by that patch's non-overlapping box collection. -/
abbrev Decomps := List (List (List (Finset Pt)))

/-- The body of `resetLevels` (lines 83-102): for each axis resize the
per-level vector to `finest + 1`, then for each level in `[c, f]`
rebuild that level's per-patch non-overlapping decomposition from its
boxes converted to edge boxes for the axis. -/
def resetDecomps (h : Hierarchy) (old : Decomps) (c f : Int) : Decomps :=
  (List.range h.dim).map (fun axis =>
    (List.range (f + 1).toNat).map (fun (ln : Nat) =>
      if c ≤ (ln : Int) then decompPointSets (levelEdgeSets (h.getLevel (ln : Int)) axis)
      else (resizeWith (old.getD axis []) (f + 1).toNat).getD ln []))

/-- The state of a `HierarchyEdgeDataOpsInteger` object: the hierarchy
pointer (possibly null), the stored level range (stored as signed ints;
negative means unbound), and the precomputed non-overlapping edge-box
decompositions. -/
structure HierOps where
  hierarchy : Option Hierarchy
  coarsest : Int
  finest : Int
  edgeDecomps : Decomps

/-- The assertion guard at the top of every data-touching operation:
`TBOX_ASSERT(d_hierarchy)` together with
`0 <= coarsest && coarsest <= finest && finest <= finestLevelNumber`. -/
def boundOK (ops : HierOps) : Bool :=
  match ops.hierarchy with
  | none => false
  | some h =>
      decide (0 ≤ ops.coarsest) && decide (ops.coarsest ≤ ops.finest) &&
        decide (ops.finest ≤ h.finestLevelNumber)

/-- `resetLevels` (lines 68-103): asserts the hierarchy and the range,
stores the range and rebuilds the decompositions.  `Except.error`
models the checked-build assertion abort. -/
def resetLevelsRun (h : Hierarchy) (old : Decomps) (c f : Int) :
    Except Unit HierOps :=
  if 0 ≤ c ∧ c ≤ f ∧ f ≤ h.finestLevelNumber then
    .ok ⟨some h, c, f, resetDecomps h old c f⟩
  else .error ()

/-- The constructor (lines 26-45): a negative coarsest or finest level
stores the arguments unchanged when the hierarchy has no levels, and
otherwise binds to the full range `[0, finestLevelNumber]`;
non-negative arguments go to `resetLevels` directly. -/
def mkHierOps (h : Hierarchy) (c f : Int) : Except Unit HierOps :=
  if c < 0 ∨ f < 0 then
    if h.levels.length = 0 then .ok ⟨some h, c, f, []⟩
    else resetLevelsRun h [] 0 h.finestLevelNumber
  else resetLevelsRun h [] c f

/-- The local accumulation of `min` (lines 778-798): start from the
type's maximum, visit every local patch of every level in the range,
and fold in the single-patch minimum over the patch box
(`interior_only`) or the array's ghost box. -/
def localMin (h : Hierarchy) (c f : Int) (id : Nat) (io : Bool) : Int :=
  (opLevels h c f).foldl
    (fun acc lvl => lvl.patches.foldl
      (fun m p =>
        min m (patchMin (p.dataD id) (if io then p.box else (p.dataD id).ghostBox)))
      acc)
    intMax

/-- The local accumulation of `max` (lines 819-839): start from the
negation of the type's maximum and fold in per-patch maxima. -/
def localMax (h : Hierarchy) (c f : Int) (id : Nat) (io : Bool) : Int :=
  (opLevels h c f).foldl
    (fun acc lvl => lvl.patches.foldl
      (fun m p =>
        max m (patchMax (p.dataD id) (if io then p.box else (p.dataD id).ghostBox)))
      acc)
    (-intMax)

/-- The local accumulation of `numberOfEntries` with
`interior_only = false` (lines 168-181): sum the per-patch entry counts
over each array's ghost box. -/
def localGhostEntries (h : Hierarchy) (c f : Int) (id : Nat) : Nat :=
  ((opLevels h c f).map (fun lvl =>
    (lvl.patches.map
      (fun p => patchNumberOfEntries (p.dataD id) (p.dataD id).ghostBox)).sum)).sum

/-- The spatial accumulation of `numberOfEntries` with
`interior_only = true` (lines 142-162): for each level in the range,
each patch index, and each axis, add the sizes of the boxes of the
precomputed non-overlapping collection (modelled as the collection's
cardinality). -/
def interiorSpatialCode (h : Hierarchy) (dec : Decomps) (c f : Int) : Nat :=
  ((intRange c f).map (fun ln =>
    ((List.range (h.getLevel ln).boxes.length).map (fun il =>
      ((List.range h.dim).map (fun eb =>
        (((dec.getD eb []).getD ln.toNat []).getD il ∅).card)).sum)).sum)).sum

/-- `numberOfEntries` with `interior_only = true` (lines 134-164): the
spatial sum over the precomputed decomposition, multiplied at the end
by the factory's depth (line 164). -/
def interiorCount (h : Hierarchy) (dec : Decomps) (c f : Int) (id : Nat) : Nat :=
  interiorSpatialCode h dec c f * (h.descriptor.getD id default).depth

/-- `MPI_Allreduce` with `MPI_MIN`: the minimum of the per-rank values
(folded from the type's maximum, which every local partial is at
most). -/
def reduceMin (xs : List Int) : Int := xs.foldl min intMax

/-- `MPI_Allreduce` with `MPI_MAX`. -/
def reduceMax (xs : List Int) : Int := xs.foldl max (-intMax)

/-- `min` as returned on rank `r` of a world of per-rank hierarchy
views (lines 766-805): the local accumulation, all-reduced with
`MPI_MIN` only when the communicator has more than one rank. -/
def hierMin (world : List Hierarchy) (r : Nat) (c f : Int) (id : Nat)
    (io : Bool) : Int :=
  match world.get? r with
  | none => 0
  | some hi =>
      let lv := localMin hi c f id io
      if 1 < hi.mpiSize then reduceMin (world.map (fun hj => localMin hj c f id io))
      else lv

/-- `max` as returned on rank `r` (lines 807-846). -/
def hierMax (world : List Hierarchy) (r : Nat) (c f : Int) (id : Nat)
    (io : Bool) : Int :=
  match world.get? r with
  | none => 0
  | some hi =>
      let lv := localMax hi c f id io
      if 1 < hi.mpiSize then reduceMax (world.map (fun hj => localMax hj c f id io))
      else lv

/-- `numberOfEntries` as returned on rank `r` (lines 119-192): the
interior branch reads the precomputed decomposition and performs no
communication; the ghost branch sums local per-patch counts and
all-reduces with `MPI_SUM` when more than one rank exists. -/
def hierNumberOfEntries (world : List Hierarchy) (dec : Decomps) (r : Nat)
    (c f : Int) (id : Nat) (io : Bool) : Nat :=
  match world.get? r with
  | none => 0
  | some hi =>
      if io then interiorCount hi dec c f id
      else
        let lv := localGhostEntries hi c f id
        if 1 < hi.mpiSize then
          (world.map (fun hj => localGhostEntries hj c f id)).sum
        else lv

/-- The collective-reduction operations this driver can issue. -/
inductive MpiRed where
  | rsum : MpiRed
  | rmin : MpiRed
  | rmax : MpiRed
deriving DecidableEq, Repr

/-- The collective calls issued by one invocation of `min`
(lines 801-803): one `MPI_MIN` all-reduce iff the communicator has more
than one rank. -/
def minCalls (h : Hierarchy) : List MpiRed :=
  if 1 < h.mpiSize then [MpiRed.rmin] else []

/-- The collective calls issued by one invocation of `max`
(lines 842-844). -/
def maxCalls (h : Hierarchy) : List MpiRed :=
  if 1 < h.mpiSize then [MpiRed.rmax] else []

/-- The collective calls issued by one invocation of `numberOfEntries`
(lines 134-189): none at all in the `interior_only = true` branch, one
`MPI_SUM` all-reduce in the ghost branch iff more than one rank. -/
def numberOfEntriesCalls (h : Hierarchy) (io : Bool) : List MpiRed :=
  if io then [] else if 1 < h.mpiSize then [MpiRed.rsum] else []

/-- The data-manipulation methods of the driver that loop over patches
and pass a region box to a single-patch operator.  Constructors carry
the patch-data ids of the method's signature; scalar coefficients are
omitted because they never influence the visited region. -/
inductive HOp where
  | copyData (dst src : Nat)
  | printData (id : Nat)
  | setToScalar (id : Nat)
  | scale (dst src : Nat)
  | addScalar (dst src : Nat)
  | add (dst src1 src2 : Nat)
  | subtract (dst src1 src2 : Nat)
  | multiply (dst src1 src2 : Nat)
  | divide (dst src1 src2 : Nat)
  | reciprocal (dst src : Nat)
  | linearSum (dst src1 src2 : Nat)
  | axpy (dst src1 src2 : Nat)
  | axmy (dst src1 src2 : Nat)
  | abs (dst src : Nat)
  | setRandomValues (id : Nat)
deriving DecidableEq, Repr

/-- The id whose array the method resolves as `d`, the destination whose
ghost box sizes the region in the `interior_only = false` case. -/
def HOp.dstId : HOp → Nat
  | .copyData dst _ => dst
  | .printData id => id
  | .setToScalar id => id
  | .scale dst _ => dst
  | .addScalar dst _ => dst
  | .add dst _ _ => dst
  | .subtract dst _ _ => dst
  | .multiply dst _ _ => dst
  | .divide dst _ _ => dst
  | .reciprocal dst _ => dst
  | .linearSum dst _ _ => dst
  | .axpy dst _ _ => dst
  | .axmy dst _ _ => dst
  | .abs dst _ => dst
  | .setRandomValues id => id

/-- The region boxes passed to the single-patch operator by one
invocation of a data-manipulation method, in patch-visit order.  Each
method in the source repeats the same loop with
`box = interior_only ? p->getBox() : d->getGhostBox()` where `d` is the
method's destination array; the branches below transcribe that
repetition. -/
def hopRegions (h : Hierarchy) (c f : Int) (k : HOp) (io : Bool) : List Box :=
  match k with
  | .copyData dst _ =>
      ((opLevels h c f).map (fun lvl => lvl.patches.map
        (fun p => if io then p.box else (p.dataD dst).ghostBox))).flatten
  | .printData id =>
      ((opLevels h c f).map (fun lvl => lvl.patches.map
        (fun p => if io then p.box else (p.dataD id).ghostBox))).flatten
  | .setToScalar id =>
      ((opLevels h c f).map (fun lvl => lvl.patches.map
        (fun p => if io then p.box else (p.dataD id).ghostBox))).flatten
  | .scale dst _ =>
      ((opLevels h c f).map (fun lvl => lvl.patches.map
        (fun p => if io then p.box else (p.dataD dst).ghostBox))).flatten
  | .addScalar dst _ =>
      ((opLevels h c f).map (fun lvl => lvl.patches.map
        (fun p => if io then p.box else (p.dataD dst).ghostBox))).flatten
  | .add dst _ _ =>
      ((opLevels h c f).map (fun lvl => lvl.patches.map
        (fun p => if io then p.box else (p.dataD dst).ghostBox))).flatten
  | .subtract dst _ _ =>
      ((opLevels h c f).map (fun lvl => lvl.patches.map
        (fun p => if io then p.box else (p.dataD dst).ghostBox))).flatten
  | .multiply dst _ _ =>
      ((opLevels h c f).map (fun lvl => lvl.patches.map
        (fun p => if io then p.box else (p.dataD dst).ghostBox))).flatten
  | .divide dst _ _ =>
      ((opLevels h c f).map (fun lvl => lvl.patches.map
        (fun p => if io then p.box else (p.dataD dst).ghostBox))).flatten
  | .reciprocal dst _ =>
      ((opLevels h c f).map (fun lvl => lvl.patches.map
        (fun p => if io then p.box else (p.dataD dst).ghostBox))).flatten
  | .linearSum dst _ _ =>
      ((opLevels h c f).map (fun lvl => lvl.patches.map
        (fun p => if io then p.box else (p.dataD dst).ghostBox))).flatten
  | .axpy dst _ _ =>
      ((opLevels h c f).map (fun lvl => lvl.patches.map
        (fun p => if io then p.box else (p.dataD dst).ghostBox))).flatten
  | .axmy dst _ _ =>
      ((opLevels h c f).map (fun lvl => lvl.patches.map
        (fun p => if io then p.box else (p.dataD dst).ghostBox))).flatten
  | .abs dst _ =>
      ((opLevels h c f).map (fun lvl => lvl.patches.map
        (fun p => if io then p.box else (p.dataD dst).ghostBox))).flatten
  | .setRandomValues id =>
      ((opLevels h c f).map (fun lvl => lvl.patches.map
        (fun p => if io then p.box else (p.dataD id).ghostBox))).flatten

/-- The assertion prologue shared by the data-touching methods:
deliver the hierarchy when bound, abort (error) otherwise. -/
def assertBound (ops : HierOps) : Except Unit Hierarchy :=
  match ops.hierarchy with
  | none => .error ()
  | some h =>
      if 0 ≤ ops.coarsest ∧ ops.coarsest ≤ ops.finest ∧
          ops.finest ≤ h.finestLevelNumber then .ok h
      else .error ()

/-- A checked-build run of a data-manipulation method: assert bound,
then produce the patch-operator region trace. -/
def checkedHOp (ops : HierOps) (k : HOp) (io : Bool) : Except Unit (List Box) :=
  (assertBound ops).map (fun h => hopRegions h ops.coarsest ops.finest k io)

/-- A checked-build run of `min` on rank `r`. -/
def checkedMin (ops : HierOps) (world : List Hierarchy) (r : Nat) (id : Nat)
    (io : Bool) : Except Unit Int :=
  (assertBound ops).map (fun _h => hierMin world r ops.coarsest ops.finest id io)

/-- A checked-build run of `max` on rank `r`. -/
def checkedMax (ops : HierOps) (world : List Hierarchy) (r : Nat) (id : Nat)
    (io : Bool) : Except Unit Int :=
  (assertBound ops).map (fun _h => hierMax world r ops.coarsest ops.finest id io)

/-- A checked-build run of `numberOfEntries` on rank `r`. -/
def checkedNumberOfEntries (ops : HierOps) (world : List Hierarchy)
    (dec : Decomps) (r : Nat) (id : Nat) (io : Bool) : Except Unit Nat :=
  (assertBound ops).map
    (fun _h => hierNumberOfEntries world dec r ops.coarsest ops.finest id io)

/-- `swapData` (lines 229-262).  With `checked = true`
(DEBUG_CHECK_ASSERTIONS) the method first resolves both ids' factories
and asserts equal depth and equal ghost width, then asserts the bound
range; only then does it swap, patch by patch.  With `checked = false`
the validation block and the assertions are compiled out and the swap
loop runs directly.  The result lists the patches whose data get
swapped; an error swaps nothing. -/
def swapDataRun (checked : Bool) (ops : HierOps) (a b : Nat) :
    Except Unit (List Patch) :=
  match ops.hierarchy with
  | none => .error ()
  | some h =>
      if checked then
        match h.descriptor[a]?, h.descriptor[b]? with
        | some fa, some fb =>
            if fa.depth = fb.depth ∧ fa.ghostWidth = fb.ghostWidth then
              if 0 ≤ ops.coarsest ∧ ops.coarsest ≤ ops.finest ∧
                  ops.finest ≤ h.finestLevelNumber then
                .ok (visitedPatches h ops.coarsest ops.finest)
              else .error ()
            else .error ()
        | _, _ => .error ()
      else .ok (visitedPatches h ops.coarsest ops.finest)

/-- `tbox::DatabaseBox`: dimension plus lower and upper corner arrays
(of capacity MAX_DIM_VAL; only the first `dimension` entries are
meaningful). -/
structure DatabaseBox where
  dimension : Nat
  lo : List Int
  hi : List Int
deriving DecidableEq, Repr

/-- `DatabaseBox::empty` (DatabaseBox.h lines 92-103): true when the
dimension is zero, otherwise when some component below the dimension
has `upper < lower`. -/
def DatabaseBox.empty (b : DatabaseBox) : Bool :=
  if b.dimension = 0 then true
  else (List.range b.dimension).any (fun i => decide (b.hi.getD i 0 < b.lo.getD i 0))

/-- The default constructor `DatabaseBox() : d_data{}`: the POD is
value-initialized, so the dimension is zero and the corner arrays
(capacity MAX_DIM_VAL = 3 in the default configuration) are zero. -/
def DatabaseBox.defaultConstructed : DatabaseBox :=
  ⟨0, List.replicate 3 0, List.replicate 3 0⟩

/-- Stated from the spec for the refinement claim: `min` by direct
sequential accumulation over all patches of all levels in the bound
range, with the min combination rule from the type's maximum. -/
def seqMin (h : Hierarchy) (c f : Int) (id : Nat) (io : Bool) : Int :=
  (visitedPatches h c f).foldl
    (fun m p =>
      min m (patchMin (p.dataD id) (if io then p.box else (p.dataD id).ghostBox)))
    intMax

/-- Stated from the spec for the refinement claim: `max` by direct
sequential accumulation over all patches. -/
def seqMax (h : Hierarchy) (c f : Int) (id : Nat) (io : Bool) : Int :=
  (visitedPatches h c f).foldl
    (fun m p =>
      max m (patchMax (p.dataD id) (if io then p.box else (p.dataD id).ghostBox)))
    (-intMax)

/-- Stated from the spec for the refinement claim: `numberOfEntries` by
direct sequential accumulation — one flat pass over every per-patch
contribution of every level of the range (the decomposition's per-patch
counts for the interior variant, per-patch ghost-box counts
otherwise). -/
def seqNumberOfEntries (h : Hierarchy) (dec : Decomps) (c f : Int) (id : Nat)
    (io : Bool) : Nat :=
  if io then
    (((intRange c f).map (fun ln =>
      (List.range (h.getLevel ln).boxes.length).map (fun il =>
        ((List.range h.dim).map (fun eb =>
          (((dec.getD eb []).getD ln.toNat []).getD il ∅).card)).sum))).flatten).sum
      * (h.descriptor.getD id default).depth
  else
    ((visitedPatches h c f).map
      (fun p => patchNumberOfEntries (p.dataD id) (p.dataD id).ghostBox)).sum

/-- Stated from the claim's reading for C10: the spatial entity count
with the axis sum outermost — the total over all axes, levels of the
range, and per-patch non-overlapping collections. -/
def interiorSpatialAxisFirst (h : Hierarchy) (dec : Decomps) (c f : Int) : Nat :=
  ((List.range h.dim).map (fun eb =>
    ((intRange c f).map (fun ln =>
      ((List.range (h.getLevel ln).boxes.length).map (fun il =>
        (((dec.getD eb []).getD ln.toNat []).getD il ∅).card)).sum)).sum)).sum

theorem list_sum_range (n : Nat) (g : Nat → Nat) :
    ((List.range n).map g).sum = ∑ i ∈ Finset.range n, g i := by
  induction n with
  | zero => simp
  | succ n ih =>
      rw [List.range_succ, List.map_append, List.sum_append, Finset.sum_range_succ, ih]
      simp

theorem foldl_flatten_eq {α β : Type} (g : β → α → β) (L : List (List α)) :
    ∀ init : β, L.flatten.foldl g init = L.foldl (fun acc l => l.foldl g acc) init := by
  induction L with
  | nil => intro init; rfl
  | cons s t ih => intro init; simp only [List.flatten_cons, List.foldl_append,
      List.foldl_cons]; exact ih _

theorem range_map_getD (n m : Nat) {α : Type} (g : Nat → α) (dflt : α) (hm : m < n) :
    (((List.range n).map g).getD m dflt) = g m := by
  rw [List.getD, List.get?_eq_getElem?, List.getElem?_map, List.getElem?_range hm]
  rfl

theorem boundOK_true_iff (ops : HierOps) :
    boundOK ops = true ↔
      ∃ h, ops.hierarchy = some h ∧ 0 ≤ ops.coarsest ∧
        ops.coarsest ≤ ops.finest ∧ ops.finest ≤ h.finestLevelNumber := by
  cases hh : ops.hierarchy with
  | none => simp [boundOK, hh]
  | some h => simp [boundOK, hh, and_assoc]

theorem assertBound_error (ops : HierOps) (hub : boundOK ops = false) :
    assertBound ops = .error () := by
  cases hh : ops.hierarchy with
  | none => simp [assertBound, hh]
  | some h =>
      have := boundOK_true_iff ops
      rw [hub] at this
      simp only [assertBound, hh]
      rw [if_neg]
      intro hc
      exact absurd (this.mpr ⟨h, hh, hc⟩) (by simp)

/-- C6: every data-touching public operation of the driver asserts,
before touching any data, that the operator is bound (hierarchy set and
`0 ≤ coarsest ≤ finest ≤ finestLevelNumber`); while unbound each such
call aborts in a checked build and performs no work. -/
theorem unbound_operations_fail_fast (ops : HierOps) (hub : boundOK ops = false) :
    ∀ (k : HOp) (io : Bool) (world : List Hierarchy) (dec : Decomps)
      (r a b id : Nat),
      checkedHOp ops k io = .error () ∧
      checkedMin ops world r id io = .error () ∧
      checkedMax ops world r id io = .error () ∧
      checkedNumberOfEntries ops world dec r id io = .error () ∧
      swapDataRun true ops a b = .error () := by
  intro k io world dec r a b id
  have herr := assertBound_error ops hub
  refine ⟨?_, ?_, ?_, ?_, ?_⟩
  · simp [checkedHOp, herr, Except.map]
  · simp [checkedMin, herr, Except.map]
  · simp [checkedMax, herr, Except.map]
  · simp [checkedNumberOfEntries, herr, Except.map]
  · cases hh : ops.hierarchy with
    | none => simp [swapDataRun, hh]
    | some h =>
        have hiff := boundOK_true_iff ops
        rw [hub] at hiff
        have hrange : ¬ (0 ≤ ops.coarsest ∧ ops.coarsest ≤ ops.finest ∧
            ops.finest ≤ h.finestLevelNumber) := by
          intro hc
          exact absurd (hiff.mpr ⟨h, hh, hc⟩) (by simp)
        simp only [swapDataRun, hh, if_pos rfl]
        cases h.descriptor[a]? with
        | none => rfl
        | some fa =>
            cases h.descriptor[b]? with
            | none => rfl
            | some fb =>
                by_cases hmatch : fa.depth = fb.depth ∧ fa.ghostWidth = fb.ghostWidth
                · simp [hmatch, hrange]
                · simp [hmatch]

/-- C6 witness: a concrete unbound operator (negative stored range over
a hierarchy with no levels) makes every data-touching operation
abort. -/
theorem unbound_operations_fail_fast_witness :
    boundOK ⟨some ⟨2, [], [], 1⟩, -1, -1, []⟩ = false ∧
    checkedHOp ⟨some ⟨2, [], [], 1⟩, -1, -1, []⟩ (HOp.setToScalar 0) true = .error () := by
  refine ⟨by decide, ?_⟩
  exact (unbound_operations_fail_fast ⟨some ⟨2, [], [], 1⟩, -1, -1, []⟩ (by decide)
    (HOp.setToScalar 0) true [] [] 0 0 0 0).1

/-- C7: `swapData` validates, deterministically and before any swap,
that the two ids' factories have equal depth and equal ghost width: in
a checked build a mismatch aborts with no patch swapped, while a
trusted build compiles the validation out and proceeds over every
patch of the bound range. -/
theorem swapData_validates_depth_ghosts (ops : HierOps) (a b : Nat)
    (h : Hierarchy) (fa fb : Factory)
    (hh : ops.hierarchy = some h)
    (ha : h.descriptor[a]? = some fa)
    (hb : h.descriptor[b]? = some fb)
    (hmm : fa.depth ≠ fb.depth ∨ fa.ghostWidth ≠ fb.ghostWidth) :
    swapDataRun true ops a b = .error () ∧
    swapDataRun false ops a b = .ok (visitedPatches h ops.coarsest ops.finest) := by
  have hfalse : ¬ (fa.depth = fb.depth ∧ fa.ghostWidth = fb.ghostWidth) := by
    intro hc
    rcases hmm with hd | hg
    · exact hd hc.1
    · exact hg hc.2
  constructor
  · simp [swapDataRun, hh, ha, hb, hfalse]
  · simp [swapDataRun, hh]

/-- C7 witness: two factories differing in depth make the checked swap
abort while the trusted swap proceeds. -/
theorem swapData_validates_depth_ghosts_witness :
    swapDataRun true ⟨some ⟨1, [⟨1, [0]⟩, ⟨2, [0]⟩], [⟨[⟨[0], [3]⟩], []⟩], 1⟩, 0, 0, []⟩ 0 1
      = .error () ∧
    swapDataRun false ⟨some ⟨1, [⟨1, [0]⟩, ⟨2, [0]⟩], [⟨[⟨[0], [3]⟩], []⟩], 1⟩, 0, 0, []⟩ 0 1
      = .ok (visitedPatches ⟨1, [⟨1, [0]⟩, ⟨2, [0]⟩], [⟨[⟨[0], [3]⟩], []⟩], 1⟩ 0 0) := by
  exact swapData_validates_depth_ghosts
    ⟨some ⟨1, [⟨1, [0]⟩, ⟨2, [0]⟩], [⟨[⟨[0], [3]⟩], []⟩], 1⟩, 0, 0, []⟩ 0 1
    ⟨1, [⟨1, [0]⟩, ⟨2, [0]⟩], [⟨[⟨[0], [3]⟩], []⟩], 1⟩ ⟨1, [0]⟩ ⟨2, [0]⟩
    rfl rfl rfl (Or.inl (by decide))

/-- C5: every data-manipulation method passes the patch's own box to
the single-patch operator when `interior_only` is true and the
destination array's ghost box when it is false, for every locally owned
patch of every level of the bound range. -/
theorem data_ops_region_selection :
    ∀ (k : HOp) (h : Hierarchy) (c f : Int) (io : Bool),
      hopRegions h c f k io =
        (visitedPatches h c f).map
          (fun p => if io then p.box else (p.dataD k.dstId).ghostBox) := by
  intro k h c f io
  cases k <;>
    (simp only [hopRegions, HOp.dstId, visitedPatches]
     rw [List.map_flatten, List.map_map]
     rfl)

/-- C8: a `DatabaseBox` is empty exactly when its dimension is zero or
some component of the upper corner below the dimension is less than the
corresponding lower component; in particular the default-constructed
box is empty. -/
theorem databaseBox_empty_iff :
    (∀ b : DatabaseBox,
      b.empty = true ↔
        (b.dimension = 0 ∨ ∃ i < b.dimension, b.hi.getD i 0 < b.lo.getD i 0)) ∧
    DatabaseBox.defaultConstructed.empty = true := by
  constructor
  · intro b
    by_cases hd : b.dimension = 0
    · simp [DatabaseBox.empty, hd]
    · simp [DatabaseBox.empty, hd, List.any_eq_true, List.mem_range]
  · decide

/-- C9: constructing the operator with a negative coarsest or finest
level stores the arguments unchanged (leaving the operator unbound)
when the hierarchy has no levels, and otherwise silently binds the
operator to the full range `[0, finestLevelNumber]`. -/
theorem constructor_negative_levels (h : Hierarchy) (c f : Int)
    (hneg : c < 0 ∨ f < 0) :
    (h.levels.length = 0 →
      mkHierOps h c f = .ok ⟨some h, c, f, []⟩ ∧
      boundOK ⟨some h, c, f, []⟩ = false) ∧
    (h.levels.length ≠ 0 →
      mkHierOps h c f =
        .ok ⟨some h, 0, h.finestLevelNumber,
          resetDecomps h [] 0 h.finestLevelNumber⟩ ∧
      boundOK ⟨some h, 0, h.finestLevelNumber,
          resetDecomps h [] 0 h.finestLevelNumber⟩ = true) := by
  constructor
  · intro hzero
    constructor
    · simp [mkHierOps, hneg, hzero]
    · rw [Bool.eq_false_iff]
      intro htrue
      rcases (boundOK_true_iff _).mp htrue with ⟨h2, hh2, hc0, hcf, hfl⟩
      cases hh2
      have hfin : h.finestLevelNumber = -1 := by
        simp [Hierarchy.finestLevelNumber, hzero]
      rw [hfin] at hfl
      omega
  · intro hpos
    have hfin0 : (0 : Int) ≤ h.finestLevelNumber := by
      have : 1 ≤ h.levels.length := Nat.one_le_iff_ne_zero.mpr hpos
      simp only [Hierarchy.finestLevelNumber]
      omega
    constructor
    · have : mkHierOps h c f = resetLevelsRun h [] 0 h.finestLevelNumber := by
        simp [mkHierOps, hneg, hpos]
      rw [this, resetLevelsRun, if_pos ⟨le_refl 0, hfin0, le_refl _⟩]
    · rw [boundOK_true_iff]
      exact ⟨h, rfl, le_refl 0, hfin0, le_refl _⟩

/-- C9 witness: with one level and coarsest = -1, finest = -1 the
constructor binds to the full range `[0, 0]`; with no levels it stores
the negatives and stays unbound. -/
theorem constructor_negative_levels_witness :
    mkHierOps ⟨1, [], [⟨[⟨[0], [1]⟩], []⟩], 1⟩ (-1) (-1) =
      .ok ⟨some ⟨1, [], [⟨[⟨[0], [1]⟩], []⟩], 1⟩, 0, 0,
        resetDecomps ⟨1, [], [⟨[⟨[0], [1]⟩], []⟩], 1⟩ [] 0 0⟩ ∧
    mkHierOps ⟨1, [], [], 1⟩ (-1) (-1) = .ok ⟨some ⟨1, [], [], 1⟩, -1, -1, []⟩ := by
  constructor
  · have := (constructor_negative_levels ⟨1, [], [⟨[⟨[0], [1]⟩], []⟩], 1⟩ (-1) (-1)
      (Or.inl (by decide))).2 (by decide)
    exact this.1
  · exact ((constructor_negative_levels ⟨1, [], [], 1⟩ (-1) (-1)
      (Or.inl (by decide))).1 rfl).1

theorem foldl_le_init {α : Type} (step : Int → α → Int)
    (hstep : ∀ acc x, step acc x ≤ acc) (xs : List α) :
    ∀ init : Int, xs.foldl step init ≤ init := by
  induction xs with
  | nil => intro init; exact le_refl _
  | cons x t ih => intro init; exact le_trans (ih (step init x)) (hstep init x)

theorem foldl_ge_init {α : Type} (step : Int → α → Int)
    (hstep : ∀ acc x, acc ≤ step acc x) (xs : List α) :
    ∀ init : Int, init ≤ xs.foldl step init := by
  induction xs with
  | nil => intro init; exact le_refl _
  | cons x t ih => intro init; exact le_trans (hstep init x) (ih (step init x))

theorem localMin_le_intMax (h : Hierarchy) (c f : Int) (id : Nat) (io : Bool) :
    localMin h c f id io ≤ intMax := by
  refine foldl_le_init _ (fun acc lvl => ?_) (opLevels h c f) intMax
  exact foldl_le_init _ (fun m p => min_le_left _ _) lvl.patches acc

theorem neg_intMax_le_localMax (h : Hierarchy) (c f : Int) (id : Nat) (io : Bool) :
    -intMax ≤ localMax h c f id io := by
  refine foldl_ge_init _ (fun acc lvl => ?_) (opLevels h c f) (-intMax)
  exact foldl_ge_init _ (fun m p => le_max_left _ _) lvl.patches acc

theorem foldl_nested_empty {β : Type} (g : β → Patch → β) (L : List Level)
    (hL : ∀ lvl ∈ L, lvl.patches = []) :
    ∀ init : β, L.foldl (fun acc lvl => lvl.patches.foldl g acc) init = init := by
  induction L with
  | nil => intro init; rfl
  | cons lvl t ih =>
      intro init
      have h1 : lvl.patches = [] := hL lvl (by simp)
      simp only [List.foldl_cons, h1, List.foldl_nil]
      exact ih (fun l hl => hL l (by simp [hl])) init

theorem localMin_empty (h : Hierarchy) (c f : Int) (id : Nat) (io : Bool)
    (hempty : ∀ lvl ∈ opLevels h c f, lvl.patches = []) :
    localMin h c f id io = intMax :=
  foldl_nested_empty _ _ hempty intMax

theorem localMax_empty (h : Hierarchy) (c f : Int) (id : Nat) (io : Bool)
    (hempty : ∀ lvl ∈ opLevels h c f, lvl.patches = []) :
    localMax h c f id io = -intMax :=
  foldl_nested_empty _ _ hempty (-intMax)

theorem foldl_const_eq (v : Int) (op : Int → Int → Int) (hop : op v v = v)
    (xs : List Int) (hxs : ∀ x ∈ xs, x = v) : xs.foldl op v = v := by
  induction xs with
  | nil => rfl
  | cons x t ih =>
      have hx : x = v := hxs x (by simp)
      simp only [List.foldl_cons, hx, hop]
      exact ih (fun y hy => hxs y (by simp [hy]))

/-- C3: `min` starts its accumulator at the type's maximum and `max` at
its negation, so over a bound range in which no level has any patch,
`min` returns the type's maximum and `max` its negation as sentinels,
for every data id, on every rank. -/
theorem min_max_empty_range_sentinels (world : List Hierarchy) (c f : Int)
    (id : Nat) (io : Bool) (r : Nat) (hr : r < world.length)
    (hempty : ∀ hi ∈ world, ∀ lvl ∈ opLevels hi c f, lvl.patches = []) :
    hierMin world r c f id io = intMax ∧
    hierMax world r c f id io = -intMax := by
  have hget : world.get? r = some (world.get ⟨r, hr⟩) := List.get?_eq_get hr
  have hmem : world.get ⟨r, hr⟩ ∈ world := List.get_mem _ _ _
  have hminmap : ∀ x ∈ world.map (fun hj => localMin hj c f id io), x = intMax := by
    intro x hx
    rcases List.mem_map.mp hx with ⟨hj, hjmem, rfl⟩
    exact localMin_empty hj c f id io (hempty hj hjmem)
  have hmaxmap : ∀ x ∈ world.map (fun hj => localMax hj c f id io), x = -intMax := by
    intro x hx
    rcases List.mem_map.mp hx with ⟨hj, hjmem, rfl⟩
    exact localMax_empty hj c f id io (hempty hj hjmem)
  constructor
  · simp only [hierMin, hget]
    by_cases hsz : 1 < (world.get ⟨r, hr⟩).mpiSize
    · simp only [hsz, if_pos]
      exact foldl_const_eq intMax min (min_self _) _ hminmap
    · simp only [hsz, if_neg, if_false]
      exact localMin_empty _ c f id io (hempty _ hmem)
  · simp only [hierMax, hget]
    by_cases hsz : 1 < (world.get ⟨r, hr⟩).mpiSize
    · simp only [hsz, if_pos]
      exact foldl_const_eq (-intMax) max (max_self _) _ hmaxmap
    · simp only [hsz, if_neg, if_false]
      exact localMax_empty _ c f id io (hempty _ hmem)

/-- C3 witness: a single-rank world whose one level has no patches. -/
theorem min_max_empty_range_sentinels_witness :
    hierMin [⟨1, [⟨1, [0]⟩], [⟨[], []⟩], 1⟩] 0 0 0 0 true = intMax ∧
    hierMax [⟨1, [⟨1, [0]⟩], [⟨[], []⟩], 1⟩] 0 0 0 0 true = -intMax := by
  exact min_max_empty_range_sentinels [⟨1, [⟨1, [0]⟩], [⟨[], []⟩], 1⟩] 0 0 0 true 0
    (by decide) (by decide)

/-- C4: on a single-process communicator each reduction-producing
operation (`min`, `max`, `numberOfEntries`) returns exactly the value of
a direct sequential accumulation over all patches of all levels of the
bound range: the cross-process reduction is a pass-through. -/
theorem single_process_reductions_equal_sequential (h : Hierarchy)
    (dec : Decomps) (c f : Int) (id : Nat) (io : Bool)
    (h1 : h.mpiSize = 1) :
    hierMin [h] 0 c f id io = seqMin h c f id io ∧
    hierMax [h] 0 c f id io = seqMax h c f id io ∧
    hierNumberOfEntries [h] dec 0 c f id io =
      seqNumberOfEntries h dec c f id io := by
  have hnot : ¬ (1 < h.mpiSize) := by omega
  refine ⟨?_, ?_, ?_⟩
  · show hierMin [h] 0 c f id io = seqMin h c f id io
    simp only [hierMin, List.get?, hnot, if_false]
    rw [seqMin, visitedPatches, foldl_flatten_eq, List.foldl_map]
    rfl
  · show hierMax [h] 0 c f id io = seqMax h c f id io
    simp only [hierMax, List.get?, hnot, if_false]
    rw [seqMax, visitedPatches, foldl_flatten_eq, List.foldl_map]
    rfl
  · show hierNumberOfEntries [h] dec 0 c f id io =
      seqNumberOfEntries h dec c f id io
    cases io with
    | true =>
        simp only [hierNumberOfEntries, List.get?, if_pos, seqNumberOfEntries]
        rw [interiorCount, interiorSpatialCode, List.sum_flatten, List.map_map]
        rfl
    | false =>
        simp only [hierNumberOfEntries, List.get?, hnot, if_false,
          seqNumberOfEntries, Bool.false_eq_true]
        rw [visitedPatches, List.map_flatten, List.sum_flatten,
          List.map_map, List.map_map]
        rfl

/-- C4 witness: a one-rank world with one level of one patch carrying
one data array. -/
theorem single_process_reductions_equal_sequential_witness :
    hierMin [⟨1, [⟨1, [0]⟩],
        [⟨[⟨[0], [1]⟩], [⟨⟨[0], [1]⟩, [⟨⟨[0], [1]⟩, 1, [([0], 5), ([1], 3)]⟩]⟩]⟩], 1⟩]
      0 0 0 0 true =
    seqMin ⟨1, [⟨1, [0]⟩],
        [⟨[⟨[0], [1]⟩], [⟨⟨[0], [1]⟩, [⟨⟨[0], [1]⟩, 1, [([0], 5), ([1], 3)]⟩]⟩]⟩], 1⟩
      0 0 0 true := by
  exact (single_process_reductions_equal_sequential _ [] 0 0 0 true rfl).1

/-- A world of per-rank hierarchy views that belong to one distributed
run: at least one rank, every rank's communicator size is the number of
ranks, and the replicated structure (dimension, descriptor, the global
box lists of every level) agrees across ranks; only the locally owned
patches may differ. -/
def Coherent (world : List Hierarchy) : Prop :=
  0 < world.length ∧ ∀ hi ∈ world, hi.mpiSize = world.length ∧
    hi.dim = (world.headD default).dim ∧
    hi.descriptor = (world.headD default).descriptor ∧
    hi.levels.map Level.boxes = (world.headD default).levels.map Level.boxes

theorem boxes_congr (A B : List Level)
    (hAB : A.map Level.boxes = B.map Level.boxes) (n : Nat) :
    (A.getD n default).boxes = (B.getD n default).boxes := by
  have h1 : (A.map Level.boxes)[n]? = (B.map Level.boxes)[n]? := by rw [hAB]
  rw [List.getElem?_map, List.getElem?_map] at h1
  cases hA : A[n]? with
  | none =>
      cases hB : B[n]? with
      | none => rw [List.getD_eq_getElem?_getD, List.getD_eq_getElem?_getD, hA, hB]
      | some lb => rw [hA, hB] at h1; simp at h1
  | some la =>
      cases hB : B[n]? with
      | none => rw [hA, hB] at h1; simp at h1
      | some lb =>
          rw [hA, hB] at h1
          simp only [Option.map_some'] at h1
          rw [List.getD_eq_getElem?_getD, List.getD_eq_getElem?_getD, hA, hB]
          simpa using h1

theorem interiorCount_congr (hi h0 : Hierarchy) (dec : Decomps) (c f : Int)
    (id : Nat) (hdim : hi.dim = h0.dim) (hdesc : hi.descriptor = h0.descriptor)
    (hbox : hi.levels.map Level.boxes = h0.levels.map Level.boxes) :
    interiorCount hi dec c f id = interiorCount h0 dec c f id := by
  unfold interiorCount interiorSpatialCode
  rw [hdim, hdesc]
  congr 1
  refine congrArg List.sum (List.map_congr_left (fun ln _ => ?_))
  simp only [Hierarchy.getLevel]
  rw [boxes_congr hi.levels h0.levels hbox ln.toNat]

/-- C2 counterexample: on a two-process communicator,
`numberOfEntries` with `interior_only = true` issues no collective
all-reduce at all (the interior branch, lines 134-164, returns the
decomposition count without communication), contradicting the claim
that every scalar-producing operation issues exactly one all-reduce. -/
theorem numberOfEntries_interior_no_allreduce_cex :
    numberOfEntriesCalls ⟨1, [⟨1, [0]⟩], [⟨[⟨[0], [1]⟩], []⟩], 2⟩ true = [] ∧
    (⟨1, [⟨1, [0]⟩], [⟨[⟨[0], [1]⟩], []⟩], 2⟩ : Hierarchy).mpiSize = 2 := by
  decide

/-- C2 (amended): `min` and `max` and `numberOfEntries` with
`interior_only = false` accumulate a local partial result over the
visited patches with the operation's own combination rule and then
issue exactly one collective all-reduce (`MPI_MIN`/`MPI_MAX`/`MPI_SUM`)
when the process count exceeds one — skipping the call with identical
semantics on a single process — and return the combined value
identically on every rank; `numberOfEntries` with
`interior_only = true` issues no reduction because its count comes from
the replicated non-overlapping decomposition, and is likewise identical
on every rank. -/
theorem scalar_reductions_allreduce_amended (world : List Hierarchy)
    (dec : Decomps) (c f : Int) (id : Nat) (io : Bool) (r r' : Nat)
    (hr : r < world.length) (hr' : r' < world.length)
    (hco : Coherent world) :
    (hierMin world r c f id io = hierMin world r' c f id io ∧
     hierMax world r c f id io = hierMax world r' c f id io ∧
     hierNumberOfEntries world dec r c f id io =
       hierNumberOfEntries world dec r' c f id io) ∧
    hierMin world r c f id io =
      reduceMin (world.map (fun hj => localMin hj c f id io)) ∧
    hierMax world r c f id io =
      reduceMax (world.map (fun hj => localMax hj c f id io)) ∧
    (io = false →
      hierNumberOfEntries world dec r c f id io =
        (world.map (fun hj => localGhostEntries hj c f id)).sum) ∧
    (∀ hi ∈ world,
      (1 < world.length →
        minCalls hi = [MpiRed.rmin] ∧ maxCalls hi = [MpiRed.rmax] ∧
        numberOfEntriesCalls hi false = [MpiRed.rsum]) ∧
      (world.length = 1 →
        minCalls hi = [] ∧ maxCalls hi = [] ∧
        numberOfEntriesCalls hi false = []) ∧
      numberOfEntriesCalls hi true = []) := by
  obtain ⟨hpos, hall⟩ := hco
  have hcalls : ∀ hi ∈ world,
      (1 < world.length →
        minCalls hi = [MpiRed.rmin] ∧ maxCalls hi = [MpiRed.rmax] ∧
        numberOfEntriesCalls hi false = [MpiRed.rsum]) ∧
      (world.length = 1 →
        minCalls hi = [] ∧ maxCalls hi = [] ∧
        numberOfEntriesCalls hi false = []) ∧
      numberOfEntriesCalls hi true = [] := by
    intro hi hmem
    have hsz := (hall hi hmem).1
    refine ⟨fun hn => ?_, fun hn => ?_, rfl⟩
    · have : 1 < hi.mpiSize := by omega
      simp [minCalls, maxCalls, numberOfEntriesCalls, this]
    · have : ¬ 1 < hi.mpiSize := by omega
      simp [minCalls, maxCalls, numberOfEntriesCalls, this]
  by_cases hn : 1 < world.length
  · have hgetr : world[r]? = some world[r] := List.getElem?_eq_getElem hr
    have hgetr' : world[r']? = some world[r'] := List.getElem?_eq_getElem hr'
    have hmemr : world[r] ∈ world := List.getElem_mem hr
    have hmemr' : world[r'] ∈ world := List.getElem_mem hr'
    rcases hall _ hmemr with ⟨hszr, hdimr, hdescr, hboxr⟩
    rcases hall _ hmemr' with ⟨hszr', hdimr', hdescr', hboxr'⟩
    have hbr : 1 < world[r].mpiSize := by omega
    have hbr' : 1 < world[r'].mpiSize := by omega
    have hio : interiorCount world[r] dec c f id =
        interiorCount world[r'] dec c f id := by
      rw [interiorCount_congr _ _ dec c f id hdimr hdescr hboxr,
        interiorCount_congr _ _ dec c f id hdimr' hdescr' hboxr']
    refine ⟨⟨?_, ?_, ?_⟩, ?_, ?_, ?_, hcalls⟩
    · simp [hierMin, hgetr, hgetr', hbr, hbr']
    · simp [hierMax, hgetr, hgetr', hbr, hbr']
    · cases io with
      | true => simp [hierNumberOfEntries, hgetr, hgetr', hio]
      | false => simp [hierNumberOfEntries, hgetr, hgetr', hbr, hbr']
    · simp [hierMin, hgetr, hbr]
    · simp [hierMax, hgetr, hbr]
    · intro hiofalse
      subst hiofalse
      simp [hierNumberOfEntries, hgetr, hbr]
  · have hn1 : world.length = 1 := by omega
    obtain ⟨hi, rfl⟩ := List.length_eq_one.mp hn1
    have hr0 : r = 0 := by omega
    have hr'0 : r' = 0 := by omega
    subst hr0; subst hr'0
    have hsz : hi.mpiSize = 1 := (hall hi (by simp)).1
    have hnot : ¬ 1 < hi.mpiSize := by omega
    have hminv : hierMin [hi] 0 c f id io = localMin hi c f id io := by
      simp [hierMin, List.get?, hnot]
    have hmaxv : hierMax [hi] 0 c f id io = localMax hi c f id io := by
      simp [hierMax, List.get?, hnot]
    refine ⟨⟨rfl, rfl, rfl⟩, ?_, ?_, ?_, hcalls⟩
    · rw [hminv]
      simp only [List.map_cons, List.map_nil, reduceMin, List.foldl_cons, List.foldl_nil]
      exact (min_eq_right (localMin_le_intMax hi c f id io)).symm
    · rw [hmaxv]
      simp only [List.map_cons, List.map_nil, reduceMax, List.foldl_cons, List.foldl_nil]
      exact (max_eq_right (neg_intMax_le_localMax hi c f id io)).symm
    · intro hiofalse
      subst hiofalse
      simp [hierNumberOfEntries, List.get?, hnot]

/-- C2 witness: a coherent two-rank world in which the ranks own
different patches; `min` returns the same value on rank 0 and
rank 1. -/
theorem scalar_reductions_allreduce_amended_witness :
    hierMin [⟨1, [⟨1, [0]⟩], [⟨[⟨[0], [1]⟩], [⟨⟨[0], [1]⟩, [⟨⟨[0], [1]⟩, 1, [([0], 4)]⟩]⟩]⟩], 2⟩,
             ⟨1, [⟨1, [0]⟩], [⟨[⟨[0], [1]⟩], []⟩], 2⟩] 0 0 0 0 true =
    hierMin [⟨1, [⟨1, [0]⟩], [⟨[⟨[0], [1]⟩], [⟨⟨[0], [1]⟩, [⟨⟨[0], [1]⟩, 1, [([0], 4)]⟩]⟩]⟩], 2⟩,
             ⟨1, [⟨1, [0]⟩], [⟨[⟨[0], [1]⟩], []⟩], 2⟩] 1 0 0 0 true := by
  exact (scalar_reductions_allreduce_amended
    [⟨1, [⟨1, [0]⟩], [⟨[⟨[0], [1]⟩], [⟨⟨[0], [1]⟩, [⟨⟨[0], [1]⟩, 1, [([0], 4)]⟩]⟩]⟩], 2⟩,
     ⟨1, [⟨1, [0]⟩], [⟨[⟨[0], [1]⟩], []⟩], 2⟩]
    [] 0 0 0 true 0 1 (by decide) (by decide)
    (by unfold Coherent; decide)).1.1

theorem mem_intRange {c f ln : Int} : ln ∈ intRange c f ↔ c ≤ ln ∧ ln ≤ f := by
  unfold intRange
  simp only [List.mem_map, List.mem_range]
  constructor
  · rintro ⟨k, hk, rfl⟩
    omega
  · rintro ⟨h1, h2⟩
    exact ⟨(ln - c).toNat, by omega, by omega⟩

theorem intRange_sum (c f : Int) (g : Int → Nat) :
    ((intRange c f).map g).sum = ∑ k ∈ Finset.range (f + 1 - c).toNat, g (c + k) := by
  unfold intRange
  rw [List.map_map]
  exact list_sum_range _ _

theorem decompPointSets_getD (sets : List (Finset Pt)) (il : Nat)
    (hil : il < sets.length) :
    (decompPointSets sets).getD il ∅ =
      (sets.getD il ∅) \ listUnion (sets.take il) := by
  unfold decompPointSets
  exact range_map_getD _ _ _ _ hil

theorem levelAxis_sum (lvl : Level) (eb : Nat) :
    ∑ il ∈ Finset.range lvl.boxes.length,
      ((decompPointSets (levelEdgeSets lvl eb)).getD il ∅).card =
    (listUnion (levelEdgeSets lvl eb)).card := by
  have hlen : (levelEdgeSets lvl eb).length = lvl.boxes.length := by
    simp [levelEdgeSets]
  rw [← hlen, ← sum_card_decompPointSets (levelEdgeSets lvl eb)]
  exact Finset.sum_congr rfl (fun il hil => by
    rw [decompPointSets_getD _ _ (List.mem_range.mp hil)])

theorem resetDecomps_getD (h : Hierarchy) (old : Decomps) (c f : Int)
    (eb : Nat) (heb : eb < h.dim) (ln : Int) (h0 : 0 ≤ c) (hcl : c ≤ ln)
    (hlf : ln ≤ f) :
    ((resetDecomps h old c f).getD eb []).getD ln.toNat [] =
      decompPointSets (levelEdgeSets (h.getLevel ln) eb) := by
  unfold resetDecomps
  rw [range_map_getD _ _ _ _ heb]
  have hln : ln.toNat < (f + 1).toNat := by omega
  rw [range_map_getD _ _ _ _ hln]
  have hcast : ((ln.toNat : Nat) : Int) = ln := Int.toNat_of_nonneg (by omega)
  rw [hcast, if_pos hcl]

/-- C1: for every bound operator and data id, `numberOfEntries` with
`interior_only = true` computes the entity count from the
decomposition precomputed by `resetLevels` — the per-axis edge boxes of
each level's global boxes made non-overlapping — so the count equals
the factory depth times the number of distinct edge entities per level
and axis: an entity lying on the shared boundary of two adjacent
patches is counted exactly once, unlike a raw per-patch-box sum. -/
theorem numberOfEntries_interior_uses_decomposition (h : Hierarchy)
    (old : Decomps) (c f : Int) (id : Nat) (fact : Factory)
    (hc : 0 ≤ c) (hfact : h.descriptor[id]? = some fact) :
    interiorCount h (resetDecomps h old c f) c f id =
      fact.depth *
        ((intRange c f).map (fun ln =>
          ∑ eb ∈ Finset.range h.dim,
            (listUnion (levelEdgeSets (h.getLevel ln) eb)).card)).sum := by
  unfold interiorCount
  have hdepth : (h.descriptor.getD id default).depth = fact.depth := by
    rw [List.getD_eq_getElem?_getD, hfact]
    rfl
  rw [hdepth, Nat.mul_comm]
  congr 1
  unfold interiorSpatialCode
  refine congrArg List.sum (List.map_congr_left (fun ln hln => ?_))
  rcases mem_intRange.mp hln with ⟨hcl, hlf⟩
  simp only [list_sum_range]
  rw [Finset.sum_comm]
  refine Finset.sum_congr rfl (fun eb heb => ?_)
  have hrw : ∀ il,
      ((((resetDecomps h old c f).getD eb []).getD ln.toNat []).getD il ∅).card =
      (((decompPointSets (levelEdgeSets (h.getLevel ln) eb)).getD il ∅)).card := by
    intro il
    rw [resetDecomps_getD h old c f eb (List.mem_range.mp heb) ln hc hcl hlf]
  rw [Finset.sum_congr rfl (fun il _ => hrw il)]
  exact levelAxis_sum (h.getLevel ln) eb

/-- C1 witness: two adjacent unit patches in 2D sharing one face, depth
two.  The interior entry count is 14 = 2 x (3 + 4): the axis-0 edge
entity on the shared boundary is counted once (a raw per-patch sum
would give 2 x (4 + 4) = 16). -/
theorem numberOfEntries_interior_uses_decomposition_witness :
    interiorCount ⟨2, [⟨2, [0]⟩], [⟨[⟨[0, 0], [0, 0]⟩, ⟨[1, 0], [1, 0]⟩], []⟩], 1⟩
        (resetDecomps ⟨2, [⟨2, [0]⟩], [⟨[⟨[0, 0], [0, 0]⟩, ⟨[1, 0], [1, 0]⟩], []⟩], 1⟩
          [] 0 0) 0 0 0 =
      (2 : Nat) *
        ((intRange 0 0).map (fun ln =>
          ∑ eb ∈ Finset.range
            (⟨2, [⟨2, [0]⟩], [⟨[⟨[0, 0], [0, 0]⟩, ⟨[1, 0], [1, 0]⟩], []⟩], 1⟩ :
              Hierarchy).dim,
            (listUnion (levelEdgeSets
              ((⟨2, [⟨2, [0]⟩], [⟨[⟨[0, 0], [0, 0]⟩, ⟨[1, 0], [1, 0]⟩], []⟩], 1⟩ :
                Hierarchy).getLevel ln) eb)).card)).sum ∧
    interiorCount ⟨2, [⟨2, [0]⟩], [⟨[⟨[0, 0], [0, 0]⟩, ⟨[1, 0], [1, 0]⟩], []⟩], 1⟩
        (resetDecomps ⟨2, [⟨2, [0]⟩], [⟨[⟨[0, 0], [0, 0]⟩, ⟨[1, 0], [1, 0]⟩], []⟩], 1⟩
          [] 0 0) 0 0 0 = 14 := by
  constructor
  · exact numberOfEntries_interior_uses_decomposition
      ⟨2, [⟨2, [0]⟩], [⟨[⟨[0, 0], [0, 0]⟩, ⟨[1, 0], [1, 0]⟩], []⟩], 1⟩
      [] 0 0 0 ⟨2, [0]⟩ (by decide) rfl
  · decide

/-- C10: `numberOfEntries` with `interior_only = true` equals the depth
of the data id's factory times the total number of spatial entities —
the sum over all axes, all levels of the bound range, and all per-patch
non-overlapping collections — with the depth factor applied exactly
once after the spatial sum. -/
theorem numberOfEntries_depth_applied_once (h : Hierarchy) (dec : Decomps)
    (c f : Int) (id : Nat) (fact : Factory)
    (hfact : h.descriptor[id]? = some fact) :
    interiorCount h dec c f id =
      fact.depth * interiorSpatialAxisFirst h dec c f := by
  unfold interiorCount interiorSpatialAxisFirst
  have hdepth : (h.descriptor.getD id default).depth = fact.depth := by
    rw [List.getD_eq_getElem?_getD, hfact]
    rfl
  rw [hdepth, Nat.mul_comm]
  congr 1
  unfold interiorSpatialCode
  simp only [intRange_sum, list_sum_range]
  rw [Finset.sum_comm]
  exact Finset.sum_congr rfl (fun k _ => Finset.sum_comm)

/-- C10 witness: one 1D patch box of three cells with a depth-3
factory: 3 x 4 = 12 interior entries, the depth applied once after the
spatial sum. -/
theorem numberOfEntries_depth_applied_once_witness :
    interiorCount ⟨1, [⟨3, [0]⟩], [⟨[⟨[0], [2]⟩], []⟩], 1⟩
        (resetDecomps ⟨1, [⟨3, [0]⟩], [⟨[⟨[0], [2]⟩], []⟩], 1⟩ [] 0 0) 0 0 0 =
      (3 : Nat) * interiorSpatialAxisFirst ⟨1, [⟨3, [0]⟩], [⟨[⟨[0], [2]⟩], []⟩], 1⟩
        (resetDecomps ⟨1, [⟨3, [0]⟩], [⟨[⟨[0], [2]⟩], []⟩], 1⟩ [] 0 0) 0 0 ∧
    interiorCount ⟨1, [⟨3, [0]⟩], [⟨[⟨[0], [2]⟩], []⟩], 1⟩
        (resetDecomps ⟨1, [⟨3, [0]⟩], [⟨[⟨[0], [2]⟩], []⟩], 1⟩ [] 0 0) 0 0 0 = 12 := by
  constructor
  · exact numberOfEntries_depth_applied_once ⟨1, [⟨3, [0]⟩], [⟨[⟨[0], [2]⟩], []⟩], 1⟩
      (resetDecomps ⟨1, [⟨3, [0]⟩], [⟨[⟨[0], [2]⟩], []⟩], 1⟩ [] 0 0) 0 0 0 ⟨3, [0]⟩ rfl
  · decide

end Samrai
